import Mathlib

/-!
# Verification of the MtG oracle-text preprocessing notebook

Shallow embedding of the text-cleaning / tokenization / vectorization
pipeline and the sliding-window generator from `mtg_oracle_text.ipynb`.

Python strings are modelled as `List Char`; the character-class predicates
(`str.isspace`, `str.isalnum`) and `str.lower` are modelled over ASCII,
which covers every character class the notebook's pipeline distinguishes.
Fallible operations (`dict` lookup raising `KeyError`, `islice` raising
`ValueError` on a negative stop) are modelled with `Option` / `Except`.
-/

namespace MtgOracle

/-- ASCII model of Python `str.isspace` on a single character:
space, tab, line feed, carriage return, vertical tab, form feed. -/
def pyIsSpace (c : Char) : Bool :=
  decide (c.toNat = 32 ∨ c.toNat = 9 ∨ c.toNat = 10 ∨ c.toNat = 13 ∨
    c.toNat = 11 ∨ c.toNat = 12)

/-- ASCII model of Python `str.isalnum` on a single character:
`a`-`z`, `A`-`Z`, `0`-`9` (as code points). -/
def pyIsAlnum (c : Char) : Bool :=
  decide ((97 ≤ c.toNat ∧ c.toNat ≤ 122) ∨ (65 ≤ c.toNat ∧ c.toNat ≤ 90) ∨
    (48 ≤ c.toNat ∧ c.toNat ≤ 57))

/-- The punctuation characters the notebook keeps: `~`, `{`, `}`, `+`, `-`, `/`
(`\x7b` is the opening brace and `\x7d` the closing brace). -/
def symbolChar (c : Char) : Bool :=
  c == '~' || c == '\x7b' || c == '\x7d' || c == '+' || c == '-' || c == '/'

/-- Lowercase ASCII letter or digit. -/
def lowerAlnum (c : Char) : Bool :=
  decide ((97 ≤ c.toNat ∧ c.toNat ≤ 122) ∨ (48 ≤ c.toNat ∧ c.toNat ≤ 57))

/-- One left-to-right scan of `parentheses_re.sub('', text)` for
`parentheses_re = re.compile(r'\([^)]*\)')`.  In normal mode (`skip = false`)
an opening paren that has some `)` later starts a match, whose span —
`[^)]*` up to and including the first `)` — is consumed in skip mode
(`skip = true`); every character outside a match is kept. -/
def rpAux : Bool → List Char → List Char
  | _, [] => []
  | true, c :: cs => if c = ')' then rpAux false cs else rpAux true cs
  | false, c :: cs =>
    if c = '(' ∧ ')' ∈ cs then rpAux true cs else c :: rpAux false cs

/-- `remove_parentheses(text)`. -/
def remove_parentheses (text : List Char) : List Char :=
  rpAux false text

/-- `true` iff the text contains a match of `\([^)]*\)`, i.e. an opening
paren with some closing paren after it. -/
def hasParenMatch : List Char → Bool
  | [] => false
  | c :: cs => (decide (c = '(') && decide (')' ∈ cs)) || hasParenMatch cs

/-- The per-character output of the loop body of `remove_punctuation`.
Note the Python code uses `if` twice (not `elif`): for `\n`, `\r`, `\t` the
first branch appends a space AND the second branch appends the character
itself (it is whitespace). -/
def removePunctChar (c : Char) : List Char :=
  (if c == '\n' || c == '\r' || c == '\t' then [' '] else []) ++
  (if pyIsSpace c || pyIsAlnum c then [c]
   else if symbolChar c then (if c == '\x7d' then [c, ' '] else [c])
   else [' '])

/-- `remove_punctuation(text)`: concatenation of the per-character outputs. -/
def remove_punctuation (text : List Char) : List Char :=
  text.flatMap removePunctChar

/-- The per-character behavior stated by the amended claim C9: tab / CR / LF
yield a space followed by the character itself; other whitespace and
alphanumerics are kept; `\x7d` is kept with an extra space after it; the
other kept symbols are kept as they are; everything else becomes a space. -/
def punctCharSpec (c : Char) : List Char :=
  if c == '\t' || c == '\r' || c == '\n' then [' ', c]
  else if pyIsSpace c || pyIsAlnum c then [c]
  else if c == '\x7d' then [c, ' ']
  else if symbolChar c then [c]
  else [' ']

/-- Accumulator-based model of Python `str.split()` (split on whitespace,
discarding empty segments).  `acc` holds the characters of the current
in-progress token, in reverse. -/
def splitAux : List Char → List Char → List String
  | [], acc => if acc.isEmpty then [] else [String.mk acc.reverse]
  | c :: cs, acc =>
    if pyIsSpace c then
      if acc.isEmpty then splitAux cs [] else String.mk acc.reverse :: splitAux cs []
    else splitAux cs (c :: acc)

/-- Python `str.split()` with no argument. -/
def pySplit (text : List Char) : List String :=
  splitAux text []

/-- `clean_oracle_text`: remove parenthesized spans, collapse newlines to
spaces, remove punctuation, lowercase (core `Char.toLower` is exactly the
ASCII case mapping of Python `str.lower`), split on whitespace. -/
def clean_oracle_text (text : List Char) : List String :=
  let no_parentheses := remove_parentheses text
  let no_newlines := no_parentheses.map (fun c => if c = '\n' then ' ' else c)
  let no_punctuation := remove_punctuation no_newlines
  let no_upper := no_punctuation.map Char.toLower
  pySplit no_upper

/-- The left-pad sentinel token. -/
def lpad : String := "<lpad>"

/-- The right-pad sentinel token. -/
def rpad : String := "<rpad>"

/-- Vocabulary: insertion-ordered association list modelling the Python
`dict[str, int]` (keys are kept distinct by construction). -/
abbrev Vocab := List (String × Nat)

/-- Dictionary lookup, `none` modelling a `KeyError`. -/
def vlookup : Vocab → String → Option Nat
  | [], _ => none
  | (k, i) :: rest, w => if k = w then some i else vlookup rest w

/-- One iteration of the vocabulary-construction loop body: skip a word that
is already a key, otherwise insert it with the next free index. -/
def bagStep (st : Vocab × Nat) (word : String) : Vocab × Nat :=
  if (vlookup st.1 word).isSome then st else (st.1 ++ [(word, st.2)], st.2 + 1)

/-- The initial state: `bag_of_words = {rpad: 0, lpad: 1}` and `index = 2`. -/
def bagInit : Vocab × Nat := ([(rpad, 0), (lpad, 1)], 2)

/-- The double loop `for name, text in cleaned: for word in text: ...`
starting from an arbitrary state. -/
def bagScan (st : Vocab × Nat) (corpus : List (List String)) : Vocab × Nat :=
  corpus.foldl (fun acc text => text.foldl bagStep acc) st

/-- The vocabulary built by the notebook's single-pass construction loop over
an ordered corpus of tokenized texts.  (The construction is a pure function
of the ordered corpus, so determinism — building twice yields the same
mapping — is definitional.) -/
def bag_of_words (corpus : List (List String)) : Vocab :=
  (bagScan bagInit corpus).1

/-- `[bag_of_words[word] for word in ws]`: `none` when some lookup raises. -/
def lookupAll (vocab : Vocab) : List String → Option (List Nat)
  | [] => some []
  | w :: ws =>
    (vlookup vocab w).bind fun i => (lookupAll vocab ws).map fun is => i :: is

/-- `vectorize(text)`, with the module-level `bag_of_words` dictionary passed
explicitly as `vocab`: look up `[lpad, *clean_oracle_text(text), rpad]`. -/
def vectorize (vocab : Vocab) (text : List Char) : Option (List Nat) :=
  lookupAll vocab (lpad :: (clean_oracle_text text ++ [rpad]))

/-- The loop of `windows`: each iteration appends `result[-1][1:] + [e]`;
`w` is the last window produced so far. -/
def windowsLoop : List Int → List Int → List (List Int)
  | [], _ => []
  | e :: rest, w =>
    let w' := w.drop 1 ++ [e]
    w' :: windowsLoop rest w'

/-- `windows(seq, n)`: `islice(it, n)` raises `ValueError` for a negative
stop; otherwise the first window is the first `n` elements (fewer when the
sequence is shorter) and each later window drops the head and appends the
next element. -/
def windows (seq : List Int) (n : Int) : Except String (List (List Int)) :=
  if n < 0 then
    .error "Stop argument for islice() must be None or an integer"
  else
    let first := seq.take n.toNat
    .ok (first :: windowsLoop (seq.drop n.toNat) first)

/-- The example vocabulary of the spec (`§8`). -/
def exampleVocab : Vocab :=
  [("<rpad>", 0), ("<lpad>", 1), ("destroy", 2), ("target", 3), ("creature", 4)]

/-- The example input text of the spec (`§8`). -/
def destroyText : List Char :=
  ['D', 'e', 's', 't', 'r', 'o', 'y', ' ', 't', 'a', 'r', 'g', 'e', 't', ' ',
   'c', 'r', 'e', 'a', 't', 'u', 'r', 'e', '.']

/-! ## Helper lemmas about `remove_parentheses` -/

theorem mem_of_mem_rpAux {l : List Char} :
    ∀ {s : Bool} {a : Char}, a ∈ rpAux s l → a ∈ l := by
  induction l with
  | nil => intro s a h; cases s <;> simp [rpAux] at h
  | cons c cs ih =>
    intro s a h
    cases s with
    | true =>
      rw [rpAux] at h
      split at h
      · exact List.mem_cons_of_mem _ (ih h)
      · exact List.mem_cons_of_mem _ (ih h)
    | false =>
      rw [rpAux] at h
      split at h
      · exact List.mem_cons_of_mem _ (ih h)
      · rcases List.mem_cons.mp h with rfl | h
        · exact List.mem_cons_self _ _
        · exact List.mem_cons_of_mem _ (ih h)

theorem rpAux_eq_self_of_no_match {l : List Char} (h : hasParenMatch l = false) :
    rpAux false l = l := by
  induction l with
  | nil => rfl
  | cons c cs ih =>
    rw [hasParenMatch, Bool.or_eq_false_iff] at h
    have h1 : ¬(c = '(' ∧ ')' ∈ cs) := by
      intro ⟨hc, hr⟩
      have := h.1
      simp [hc, hr] at this
    have h2 := h.2
    rw [rpAux, if_neg h1, ih h2]

theorem hasParenMatch_rpAux (l : List Char) :
    ∀ s, hasParenMatch (rpAux s l) = false := by
  induction l with
  | nil => intro s; cases s <;> rfl
  | cons c cs ih =>
    intro s
    cases s with
    | true =>
      rw [rpAux]
      split
      · exact ih false
      · exact ih true
    | false =>
      rw [rpAux]
      split
      · exact ih true
      · rename_i hcond
        rw [hasParenMatch, ih false, Bool.or_false]
        by_cases hc : c = '('
        · have hr : ')' ∉ rpAux false cs := fun hmem =>
            hcond ⟨hc, mem_of_mem_rpAux hmem⟩
          simp [hr]
        · simp [hc]

/-! ## Helper lemmas about character classes and `Char.toLower` -/

theorem toLower_eq_self (c : Char) (h : ¬(65 ≤ c.toNat ∧ c.toNat ≤ 90)) :
    c.toLower = c := by
  rw [Char.toLower, if_neg]
  exact fun hc => h ⟨hc.1, hc.2⟩

theorem toNat_toLower_of_upper (c : Char) (h1 : 65 ≤ c.toNat) (h2 : c.toNat ≤ 90) :
    c.toLower.toNat = c.toNat + 32 := by
  rw [Char.toLower, if_pos ⟨h1, h2⟩]
  have hv : (c.toNat + 32).isValidChar := Or.inl (by omega)
  rw [Char.ofNat, dif_pos hv]
  rfl

theorem pyIsSpace_toLower {c : Char} (h : pyIsSpace c = true) :
    c.toLower = c := by
  rw [pyIsSpace, decide_eq_true_eq] at h
  exact toLower_eq_self c (by omega)

/-- Tokens produced by `splitAux` on an all-whitespace input: none. -/
theorem splitAux_nil_of_all_space {l : List Char}
    (h : ∀ c ∈ l, pyIsSpace c = true) : splitAux l [] = [] := by
  induction l with
  | nil => rfl
  | cons c cs ih =>
    rw [splitAux, if_pos (h c (List.mem_cons_self c cs)),
      if_pos List.isEmpty_nil]
    exact ih fun d hd => h d (List.mem_cons_of_mem c hd)

/-- A character that is neither alphanumeric nor a kept symbol contributes
only whitespace to the output of the character-level pass. -/
theorem removePunctChar_space {c : Char} (ha : pyIsAlnum c = false)
    (hs : symbolChar c = false) :
    ∀ d ∈ removePunctChar c, pyIsSpace d = true := by
  intro d hd
  rw [removePunctChar] at hd
  rcases List.mem_append.mp hd with hd | hd
  · split at hd
    · rw [List.mem_singleton] at hd
      subst hd
      decide
    · simp at hd
  · split at hd
    · rename_i hcond
      rw [List.mem_singleton] at hd
      subst hd
      rw [Bool.or_eq_true] at hcond
      rcases hcond with h | h
      · exact h
      · rw [ha] at h
        cases h
    · rw [hs] at hd
      simp only [Bool.false_eq_true, if_false, List.mem_singleton] at hd
      subst hd
      decide

/-- Every output character of the character-level pass is whitespace,
alphanumeric, or a kept symbol. -/
theorem removePunctChar_class {c d : Char} (hd : d ∈ removePunctChar c) :
    pyIsSpace d = true ∨ pyIsAlnum d = true ∨ symbolChar d = true := by
  rw [removePunctChar] at hd
  rcases List.mem_append.mp hd with hd | hd
  · split at hd
    · rw [List.mem_singleton] at hd
      subst hd
      left
      decide
    · simp at hd
  · split at hd
    · rename_i hcond
      rw [List.mem_singleton] at hd
      subst hd
      rw [Bool.or_eq_true] at hcond
      rcases hcond with h | h
      · exact Or.inl h
      · exact Or.inr (Or.inl h)
    · rename_i hcond
      split at hd
      · rename_i hsym
        split at hd
        · rcases List.mem_cons.mp hd with rfl | hd
          · exact Or.inr (Or.inr hsym)
          · rw [List.mem_singleton] at hd
            subst hd
            left
            decide
        · rw [List.mem_singleton] at hd
          subst hd
          exact Or.inr (Or.inr hsym)
      · rw [List.mem_singleton] at hd
        subst hd
        left
        decide

/-! ## Helper lemmas about `lookupAll` -/

theorem lookupAll_append (v : Vocab) (xs ys : List String) :
    lookupAll v (xs ++ ys) =
      (lookupAll v xs).bind fun a => (lookupAll v ys).map fun b => a ++ b := by
  induction xs with
  | nil =>
    rw [List.nil_append]
    cases h : lookupAll v ys <;> simp [lookupAll, h]
  | cons w ws ih =>
    rw [List.cons_append, lookupAll, lookupAll, ih]
    cases vlookup v w <;> cases lookupAll v ws <;> cases lookupAll v ys <;> simp

theorem lookupAll_eq_none_iff (v : Vocab) (ws : List String) :
    lookupAll v ws = none ↔ ∃ w ∈ ws, vlookup v w = none := by
  induction ws with
  | nil => simp [lookupAll]
  | cons w ws ih =>
    rw [lookupAll]
    cases hv : vlookup v w with
    | none => simp [hv]
    | some i =>
      cases hl : lookupAll v ws with
      | none =>
        simp only [Option.some_bind, hl, Option.map_none', true_iff]
        obtain ⟨u, hu, hun⟩ := ih.mp hl
        exact ⟨u, List.mem_cons_of_mem w hu, hun⟩
      | some a =>
        simp only [Option.some_bind, hl, Option.map_some', reduceCtorEq,
          false_iff, not_exists]
        intro u hu
        obtain ⟨hu, hun⟩ := hu
        rcases List.mem_cons.mp hu with rfl | hu
        · rw [hv] at hun
          cases hun
        · rw [ih.mpr ⟨u, hu, hun⟩] at hl
          cases hl

/-- Tokens cut out by `splitAux` are non-empty and made of non-whitespace
characters that satisfy any property `P` holding of the input's
non-whitespace characters. -/
theorem splitAux_tokens {P : Char → Prop} :
    ∀ (l acc : List Char), (∀ c ∈ l, pyIsSpace c = true ∨ P c) →
      (∀ c ∈ acc, P c ∧ pyIsSpace c = false) →
      ∀ tok ∈ splitAux l acc,
        tok.data ≠ [] ∧ ∀ c ∈ tok.data, P c ∧ pyIsSpace c = false := by
  intro l
  induction l with
  | nil =>
    intro acc _ hacc tok htok
    rw [splitAux] at htok
    split at htok
    · simp at htok
    · rename_i hne
      rw [List.mem_singleton] at htok
      subst htok
      refine ⟨?_, ?_⟩
      · show acc.reverse ≠ []
        simp only [ne_eq, List.reverse_eq_nil_iff]
        exact fun h => hne (by rw [h]; rfl)
      · intro c hc
        exact hacc c (List.mem_reverse.mp hc)
  | cons c cs ih =>
    intro acc hl hacc tok htok
    have hltail : ∀ d ∈ cs, pyIsSpace d = true ∨ P d :=
      fun d hd => hl d (List.mem_cons_of_mem c hd)
    rw [splitAux] at htok
    by_cases hsp : pyIsSpace c = true
    · rw [if_pos hsp] at htok
      split at htok
      · exact ih [] hltail (by simp) tok htok
      · rename_i hne
        rcases List.mem_cons.mp htok with rfl | htok
        · refine ⟨?_, ?_⟩
          · show acc.reverse ≠ []
            simp only [ne_eq, List.reverse_eq_nil_iff]
            exact fun h => hne (by rw [h]; rfl)
          · intro d hd
            exact hacc d (List.mem_reverse.mp hd)
        · exact ih [] hltail (by simp) tok htok
    · rw [if_neg hsp] at htok
      have hPc : P c := (hl c (List.mem_cons_self c cs)).resolve_left hsp
      refine ih (c :: acc) hltail ?_ tok htok
      intro d hd
      rcases List.mem_cons.mp hd with rfl | hd
      · exact ⟨hPc, Bool.eq_false_iff.mpr (fun h => hsp h)⟩
      · exact hacc d hd

/-- Every token of `clean_oracle_text` is non-empty and consists only of
non-whitespace characters that are lowercase alphanumerics or kept
symbols. -/
theorem clean_oracle_text_chars {t : List Char} :
    ∀ tok ∈ clean_oracle_text t, tok.data ≠ [] ∧
      ∀ c ∈ tok.data,
        (lowerAlnum c = true ∨ symbolChar c = true) ∧ pyIsSpace c = false := by
  rw [clean_oracle_text, pySplit]
  apply splitAux_tokens _ _ _ (by simp)
  intro d hd
  rcases List.mem_map.mp hd with ⟨d0, hd0, rfl⟩
  rcases List.mem_flatMap.mp hd0 with ⟨c2, _, hd0c⟩
  rcases removePunctChar_class hd0c with hsp | hal | hsym
  · left
    rw [pyIsSpace_toLower hsp]
    exact hsp
  · right
    rw [pyIsAlnum, decide_eq_true_eq] at hal
    by_cases hup : 65 ≤ d0.toNat ∧ d0.toNat ≤ 90
    · left
      rw [lowerAlnum, decide_eq_true_eq,
        toNat_toLower_of_upper d0 hup.1 hup.2]
      omega
    · left
      rw [toLower_eq_self d0 hup, lowerAlnum, decide_eq_true_eq]
      omega
  · right
    rw [symbolChar] at hsym
    simp only [Bool.or_eq_true, beq_iff_eq] at hsym
    rcases hsym with ((((rfl | rfl) | rfl) | rfl) | rfl) | rfl <;> decide

/-! ## Helper lemmas about the vocabulary construction -/

theorem vlookup_append_left {v : Vocab} {t : String} {i : Nat}
    (h : vlookup v t = some i) (l : Vocab) : vlookup (v ++ l) t = some i := by
  induction v with
  | nil => cases h
  | cons p v ih =>
    obtain ⟨k, j⟩ := p
    rw [vlookup] at h
    rw [List.cons_append, vlookup]
    split at h
    · rename_i hk
      rw [if_pos hk]
      exact h
    · rename_i hk
      rw [if_neg hk]
      exact ih h

theorem vlookup_mem {v : Vocab} {t : String} {i : Nat}
    (h : vlookup v t = some i) : (t, i) ∈ v := by
  induction v with
  | nil => cases h
  | cons p v ih =>
    obtain ⟨k, j⟩ := p
    rw [vlookup] at h
    split at h
    · rename_i hk
      injection h with h
      subst h
      subst hk
      exact List.mem_cons_self _ _
    · exact List.mem_cons_of_mem _ (ih h)

/-- In an association list whose ids are distinct, two keys mapped to the
same id are equal. -/
theorem snd_nodup_unique {v : Vocab} (hnd : (v.map Prod.snd).Nodup)
    {t u : String} {i : Nat} (ht : (t, i) ∈ v) (hu : (u, i) ∈ v) : t = u := by
  induction v with
  | nil => cases ht
  | cons p v ih =>
    rw [List.map_cons, List.nodup_cons] at hnd
    obtain ⟨hh, hnd⟩ := hnd
    rcases List.mem_cons.mp ht with h1 | h1 <;>
      rcases List.mem_cons.mp hu with h2 | h2
    · exact congrArg Prod.fst (h1.trans h2.symm)
    · rw [← h1] at hh
      exact absurd (List.mem_map_of_mem Prod.snd h2) hh
    · rw [← h2] at hh
      exact absurd (List.mem_map_of_mem Prod.snd h1) hh
    · exact ih hnd h1 h2

/-- The construction's invariant: the ids along the association list are
exactly `0, 1, 2, ...` up to the running index. -/
theorem bagStep_snd_range {st : Vocab × Nat}
    (h : st.1.map Prod.snd = List.range st.2) (w : String) :
    (bagStep st w).1.map Prod.snd = List.range (bagStep st w).2 := by
  rw [bagStep]
  split
  · exact h
  · simp only [List.map_append, h, List.map_cons, List.map_nil]
    rw [← Nat.succ_eq_add_one, List.range_succ]

theorem foldl_bagStep_snd_range {ws : List String} :
    ∀ {st : Vocab × Nat}, st.1.map Prod.snd = List.range st.2 →
      (ws.foldl bagStep st).1.map Prod.snd =
        List.range (ws.foldl bagStep st).2 := by
  induction ws with
  | nil => intro st h; exact h
  | cons w ws ih =>
    intro st h
    rw [List.foldl_cons]
    exact ih (bagStep_snd_range h w)

theorem bagScan_snd_range (corpus : List (List String)) :
    ∀ {st : Vocab × Nat}, st.1.map Prod.snd = List.range st.2 →
      (bagScan st corpus).1.map Prod.snd =
        List.range (bagScan st corpus).2 := by
  induction corpus with
  | nil => intro st h; exact h
  | cons txt corpus ih =>
    intro st h
    rw [bagScan, List.foldl_cons]
    exact ih (foldl_bagStep_snd_range h)

/-- A key's id survives one step of the construction loop. -/
theorem bagStep_stable {st : Vocab × Nat} {t : String} {i : Nat}
    (w : String) (h : vlookup st.1 t = some i) :
    vlookup (bagStep st w).1 t = some i := by
  rw [bagStep]
  split
  · exact h
  · exact vlookup_append_left h _

theorem foldl_bagStep_stable {ws : List String} :
    ∀ {st : Vocab × Nat} {t : String} {i : Nat}, vlookup st.1 t = some i →
      vlookup (ws.foldl bagStep st).1 t = some i := by
  induction ws with
  | nil => intro st t i h; exact h
  | cons w ws ih =>
    intro st t i h
    rw [List.foldl_cons]
    exact ih (bagStep_stable w h)

/-- A key's id survives the whole scan of a corpus. -/
theorem bagScan_stable (corpus : List (List String)) :
    ∀ {st : Vocab × Nat} {t : String} {i : Nat}, vlookup st.1 t = some i →
      vlookup (bagScan st corpus).1 t = some i := by
  induction corpus with
  | nil => intro st t i h; exact h
  | cons txt corpus ih =>
    intro st t i h
    rw [bagScan, List.foldl_cons]
    exact ih (foldl_bagStep_stable h)

/-! ## Helper lemmas about `windows` -/

theorem windowsLoop_length (rest w : List Int) :
    (windowsLoop rest w).length = rest.length := by
  induction rest generalizing w with
  | nil => rfl
  | cons e rest ih => simp [windowsLoop, ih]

theorem windowsLoop_mem_length {rest w : List Int} (hw : w ≠ []) :
    ∀ v ∈ windowsLoop rest w, v.length = w.length := by
  induction rest generalizing w with
  | nil => intro v hv; simp [windowsLoop] at hv
  | cons e rest ih =>
    intro v hv
    have hlen : (w.drop 1 ++ [e]).length = w.length := by
      have : 1 ≤ w.length := List.length_pos.mpr hw
      simp
      omega
    rw [windowsLoop] at hv
    rcases List.mem_cons.mp hv with rfl | hv
    · exact hlen
    · rw [ih (by simp) v hv, hlen]

theorem windowsLoop_map_getLast (rest w : List Int) :
    (windowsLoop rest w).map List.getLast? = rest.map some := by
  induction rest generalizing w with
  | nil => rfl
  | cons e rest ih => simp [windowsLoop, ih, List.getLast?_concat]

theorem windowsLoop_consec {rest : List Int} :
    ∀ (w : List Int) (i : Nat) (wi : List Int) (e : Int),
      (w :: windowsLoop rest w)[i]? = some wi → rest[i]? = some e →
      (w :: windowsLoop rest w)[i + 1]? = some (wi.drop 1 ++ [e]) := by
  induction rest with
  | nil => intro w i wi e _ he; simp at he
  | cons e0 rest ih =>
    intro w i wi e hwi he
    cases i with
    | zero =>
      simp only [List.getElem?_cons_zero, Option.some.injEq] at hwi he
      subst hwi; subst he
      simp [windowsLoop]
    | succ i =>
      rw [List.getElem?_cons_succ] at hwi he
      rw [windowsLoop] at hwi ⊢
      rw [List.getElem?_cons_succ]
      exact ih (w.drop 1 ++ [e0]) i wi e hwi he

/-! ## Claim theorems -/

/-- Claim C1: for `1 ≤ n ≤ len(s)`, `windows(s, n)` returns exactly
`len(s) - n + 1` windows, each of length exactly `n`, the sequence of the
windows' last elements is `s[n-1:]`, and the spec's example holds. -/
theorem claim1_windows_shape (s : List Int) (n : Int)
    (h1 : 1 ≤ n) (h2 : n ≤ (s.length : Int)) :
    (∃ r, windows s n = .ok r ∧
      (r.length : Int) = (s.length : Int) - n + 1 ∧
      (∀ w ∈ r, (w.length : Int) = n) ∧
      r.map List.getLast? = (s.drop (n.toNat - 1)).map some) ∧
    windows [1, 162, 26, 19, 0] 3 =
      .ok [[1, 162, 26], [162, 26, 19], [26, 19, 0]] := by
  refine ⟨?_, rfl⟩
  have hn0 : ¬ n < 0 := by omega
  have hmn : (n.toNat : Int) = n := Int.toNat_of_nonneg (by omega)
  have hm1 : 1 ≤ n.toNat := by omega
  have hm2 : n.toNat ≤ s.length := by omega
  refine ⟨s.take n.toNat :: windowsLoop (s.drop n.toNat) (s.take n.toNat),
    by rw [windows, if_neg hn0], ?_, ?_, ?_⟩
  · have hlen : (s.take n.toNat :: windowsLoop (s.drop n.toNat)
        (s.take n.toNat)).length = s.length - n.toNat + 1 := by
      simp [windowsLoop_length]
    rw [hlen]
    omega
  · intro w hw
    have htake : (s.take n.toNat).length = n.toNat := by
      simp
      omega
    rcases List.mem_cons.mp hw with rfl | hw
    · rw [htake]; omega
    · have hne : s.take n.toNat ≠ [] :=
        List.ne_nil_of_length_pos (by omega)
      rw [windowsLoop_mem_length hne w hw, htake]
      omega
  · have hidx : n.toNat - 1 < s.length := by omega
    have hsucc : n.toNat - 1 + 1 = n.toNat := by omega
    have hlast : (s.take n.toNat).getLast? = some s[n.toNat - 1] := by
      have htk : s.take n.toNat = s.take (n.toNat - 1) ++ [s[n.toNat - 1]] := by
        conv_lhs => rw [← hsucc]
        rw [List.take_succ, List.getElem?_eq_getElem hidx]
        rfl
      rw [htk, List.getLast?_concat]
    have hdrop : s.drop (n.toNat - 1) = s[n.toNat - 1] :: s.drop n.toNat := by
      rw [List.drop_eq_getElem_cons hidx, hsucc]
    rw [hdrop]
    simp [windowsLoop_map_getLast, hlast]

/-- Witness for C1 at the spec's own example. -/
theorem claim1_witness :
    (∃ r, windows [1, 162, 26, 19, 0] 3 = .ok r ∧
      (r.length : Int) = (([1, 162, 26, 19, 0] : List Int).length : Int) - 3 + 1 ∧
      (∀ w ∈ r, (w.length : Int) = 3) ∧
      r.map List.getLast? =
        (([1, 162, 26, 19, 0] : List Int).drop ((3 : Int).toNat - 1)).map some) ∧
    windows [1, 162, 26, 19, 0] 3 =
      .ok [[1, 162, 26], [162, 26, 19], [26, 19, 0]] :=
  claim1_windows_shape [1, 162, 26, 19, 0] 3 (by decide) (by decide)

/-- Claim C4: a failure of `windows` implies the width is non-positive
(the only raising operation, `islice`, raises exactly for a negative stop),
and for `n ≥ 1` the call returns normally for every sequence. -/
theorem claim4_windows_failure (s : List Int) (n : Int) :
    (∀ msg, windows s n = .error msg → n ≤ 0) ∧
    (1 ≤ n → ∃ r, windows s n = .ok r) := by
  constructor
  · intro msg h
    rw [windows] at h
    split at h
    · omega
    · cases h
  · intro h1
    rw [windows, if_neg (by omega)]
    exact ⟨_, rfl⟩

/-- Witness for C4: `windows([1,2], 2)` returns normally. -/
theorem claim4_witness : ∃ r, windows [1, 2] 2 = .ok r :=
  (claim4_windows_failure [1, 2] 2).2 (by decide)

/-- Claim C5: `remove_parentheses` is idempotent. -/
theorem claim5_remove_parentheses_idem (t : List Char) :
    remove_parentheses (remove_parentheses t) = remove_parentheses t := by
  rw [remove_parentheses, remove_parentheses,
    rpAux_eq_self_of_no_match (hasParenMatch_rpAux t false)]

/-- Claim C8: for `n ≥ 1` the first window is `seq[:n]` (all of `seq` when
`len(seq) < n`), each later window is the previous one with its head dropped
and the next source element appended, and a too-short input yields exactly
one window holding the whole sequence, with no error. -/
theorem claim8_windows_stepping (s : List Int) (n : Int) (h : 1 ≤ n) :
    ∃ r, windows s n = .ok r ∧
      r.head? = some (s.take n.toNat) ∧
      r.length = (s.length - n.toNat) + 1 ∧
      (∀ i wi e, r[i]? = some wi → (s.drop n.toNat)[i]? = some e →
        r[i + 1]? = some (wi.drop 1 ++ [e])) ∧
      (s.length < n.toNat → r = [s]) := by
  have hn0 : ¬ n < 0 := by omega
  refine ⟨s.take n.toNat :: windowsLoop (s.drop n.toNat) (s.take n.toNat),
    by rw [windows, if_neg hn0], rfl, by simp [windowsLoop_length], ?_, ?_⟩
  · intro i wi e hwi he
    exact windowsLoop_consec (s.take n.toNat) i wi e hwi he
  · intro hshort
    have h1 : s.take n.toNat = s := List.take_of_length_le (by omega)
    have h2 : s.drop n.toNat = [] := List.drop_eq_nil_of_le (by omega)
    rw [h1, h2]
    rfl

/-- Witness for C8 on a sequence shorter than the width. -/
theorem claim8_witness :
    ∃ r, windows [7, 8] 5 = .ok r ∧
      r.head? = some (([7, 8] : List Int).take (5 : Int).toNat) ∧
      r.length = (([7, 8] : List Int).length - (5 : Int).toNat) + 1 ∧
      (∀ i wi e, r[i]? = some wi →
        (([7, 8] : List Int).drop (5 : Int).toNat)[i]? = some e →
        r[i + 1]? = some (wi.drop 1 ++ [e])) ∧
      (([7, 8] : List Int).length < (5 : Int).toNat → r = [[7, 8]]) :=
  claim8_windows_stepping [7, 8] 5 (by decide)

/-- Counterexample for C9: the claim says every tab is mapped to a space,
but `remove_punctuation("\t")` is a space followed by the kept tab
(the Python code's second `if` is not an `elif`). -/
theorem claim9_counterexample :
    remove_punctuation ['\t'] = [' ', '\t'] ∧ remove_punctuation ['\t'] ≠ [' '] := by
  decide

/-- Amended claim C9: in the character-level pass each tab, carriage return
and line feed yields a space followed by the character itself; other
whitespace and alphanumerics are kept; the symbols are kept, `}` with an
extra space after it; every other character becomes a space.  Stated as:
`remove_punctuation` agrees with the per-character case table
`punctCharSpec` concatenated over the input. -/
theorem claim9_char_pass (t : List Char) :
    remove_punctuation t = t.flatMap punctCharSpec := by
  have hchar : ∀ c, removePunctChar c = punctCharSpec c := by
    intro c
    by_cases h1 : c = '\n'
    · subst h1; decide
    by_cases h2 : c = '\r'
    · subst h2; decide
    by_cases h3 : c = '\t'
    · subst h3; decide
    by_cases h4 : c = '\x7d'
    · subst h4; decide
    have hA : (c == '\n' || c == '\r' || c == '\t') = false := by
      simp [h1, h2, h3]
    have hA2 : (c == '\t' || c == '\r' || c == '\n') = false := by
      simp [h1, h2, h3]
    have hD : (c == '\x7d') = false := by simp [h4]
    simp [removePunctChar, punctCharSpec, hA, hA2, hD]
  rw [remove_punctuation, funext hchar]

/-- Claim C2: with the sentinels at their fixed ids in the vocabulary,
`vectorize` returns `[1] ++ ids ++ [0]` when every cleaned token is present,
fails with a lookup error exactly when some cleaned token is absent, and the
spec's example evaluates as stated. -/
theorem claim2_vectorize_contract (vocab : Vocab) (t : List Char)
    (hl : vlookup vocab lpad = some 1) (hr : vlookup vocab rpad = some 0) :
    (∀ ids, lookupAll vocab (clean_oracle_text t) = some ids →
      vectorize vocab t = some (1 :: (ids ++ [0]))) ∧
    (vectorize vocab t = none ↔
      ∃ w ∈ clean_oracle_text t, vlookup vocab w = none) ∧
    vectorize exampleVocab destroyText = some [1, 2, 3, 4, 0] := by
  refine ⟨?_, ?_, rfl⟩
  · intro ids hids
    rw [vectorize, lookupAll, hl, lookupAll_append, hids, lookupAll, hr,
      lookupAll]
    rfl
  · rw [vectorize, lookupAll, hl, lookupAll_append, Option.some_bind]
    cases hc : lookupAll vocab (clean_oracle_text t) with
    | none =>
      simp only [Option.none_bind, Option.map_none', true_iff]
      exact (lookupAll_eq_none_iff vocab _).mp hc
    | some a =>
      rw [lookupAll, hr, lookupAll]
      simp only [Option.some_bind, Option.map_some', reduceCtorEq,
        false_iff, not_exists]
      intro u hu
      obtain ⟨hu, hun⟩ := hu
      rw [(lookupAll_eq_none_iff vocab _).mpr ⟨u, hu, hun⟩] at hc
      cases hc

/-- Witness for C2 at the spec's example vocabulary and text. -/
theorem claim2_witness :
    vlookup exampleVocab lpad = some 1 ∧ vlookup exampleVocab rpad = some 0 ∧
    vectorize exampleVocab destroyText = some [1, 2, 3, 4, 0] :=
  ⟨by decide, by decide,
    (claim2_vectorize_contract exampleVocab destroyText (by decide)
      (by decide)).2.2⟩

/-- Counterexample for C3: `"~"` contains no alphanumeric character, yet
`clean_oracle_text` returns the non-empty token list `["~"]` (the kept
symbols survive). -/
theorem claim3_counterexample :
    pyIsAlnum '~' = false ∧ clean_oracle_text ['~'] = ["~"] ∧
    clean_oracle_text ['~'] ≠ [] := by
  decide

/-- Amended claim C3: for every input text containing no alphanumeric
character and none of the kept symbols `~ { } + - /`, `clean_oracle_text`
returns the empty token list. -/
theorem claim3_no_alnum_no_symbol_empty (t : List Char)
    (h : ∀ c ∈ t, pyIsAlnum c = false ∧ symbolChar c = false) :
    clean_oracle_text t = [] := by
  rw [clean_oracle_text, pySplit]
  apply splitAux_nil_of_all_space
  intro d hd
  rcases List.mem_map.mp hd with ⟨d0, hd0, rfl⟩
  rcases List.mem_flatMap.mp hd0 with ⟨c2, hc2, hd0c⟩
  rcases List.mem_map.mp hc2 with ⟨c1, hc1, rfl⟩
  have hc1t := h c1 (mem_of_mem_rpAux hc1)
  have hprop : pyIsAlnum (if c1 = '\n' then ' ' else c1) = false ∧
      symbolChar (if c1 = '\n' then ' ' else c1) = false := by
    by_cases hnl : c1 = '\n'
    · rw [if_pos hnl]
      exact ⟨by decide, by decide⟩
    · rw [if_neg hnl]
      exact hc1t
  have hspace := removePunctChar_space hprop.1 hprop.2 d0 hd0c
  rw [pyIsSpace_toLower hspace]
  exact hspace

/-- Witness for the amended C3 on the text `". "`. -/
theorem claim3_witness :
    (∀ c ∈ ['.', ' '], pyIsAlnum c = false ∧ symbolChar c = false) ∧
    clean_oracle_text ['.', ' '] = [] :=
  ⟨by decide, claim3_no_alnum_no_symbol_empty ['.', ' '] (by decide)⟩

/-- Claim C6: the vocabulary built by the single-pass loop carries the ids
`0, 1, 2, ...` in first-appearance (insertion) order — hence every distinct
token has a unique id, assigned in strictly increasing order of first
appearance — and an id assigned after scanning a corpus prefix is unchanged
by the rest of the scan.  (Determinism — building twice from the same
ordered corpus giving the same mapping — is definitional here, the
embedding being a pure function of the ordered corpus.) -/
theorem claim6_vocab_build (corpus : List (List String)) :
    (bag_of_words corpus).map Prod.snd =
      List.range (bag_of_words corpus).length ∧
    (∀ t u i, vlookup (bag_of_words corpus) t = some i →
      vlookup (bag_of_words corpus) u = some i → t = u) ∧
    (∀ pre suf t i, corpus = pre ++ suf →
      vlookup (bag_of_words pre) t = some i →
      vlookup (bag_of_words corpus) t = some i) := by
  have hr := @bagScan_snd_range corpus bagInit rfl
  have hlen : (bag_of_words corpus).length = (bagScan bagInit corpus).2 := by
    have := congrArg List.length hr
    simpa using this
  refine ⟨?_, ?_, ?_⟩
  · rw [hlen]
    exact hr
  · intro t u i ht hu
    have hnd : ((bag_of_words corpus).map Prod.snd).Nodup := by
      show ((bagScan bagInit corpus).1.map Prod.snd).Nodup
      rw [hr]
      exact List.nodup_range _
    exact snd_nodup_unique hnd (vlookup_mem ht) (vlookup_mem hu)
  · intro pre suf t i hcorpus hpre
    subst hcorpus
    show vlookup (bagScan bagInit (pre ++ suf)).1 t = some i
    rw [bagScan, List.foldl_append]
    exact bagScan_stable suf hpre

/-- Witness for C6: the id `"destroy"` receives from the first text is kept
after the second text is scanned. -/
theorem claim6_witness :
    vlookup (bag_of_words [["destroy"]]) "destroy" = some 2 ∧
    vlookup (bag_of_words [["destroy"], ["target", "destroy"]]) "destroy" =
      some 2 :=
  ⟨by decide,
    (claim6_vocab_build [["destroy"], ["target", "destroy"]]).2.2
      [["destroy"]] [["target", "destroy"]] "destroy" 2 rfl (by decide)⟩

/-- Claim C7: the right-pad sentinel has id 0 and the left-pad sentinel has
id 1 in every built vocabulary, and no other token ever receives either
sentinel id. -/
theorem claim7_sentinel_ids (corpus : List (List String)) :
    vlookup (bag_of_words corpus) rpad = some 0 ∧
    vlookup (bag_of_words corpus) lpad = some 1 ∧
    (∀ t, vlookup (bag_of_words corpus) t = some 0 → t = rpad) ∧
    (∀ t, vlookup (bag_of_words corpus) t = some 1 → t = lpad) := by
  have h0 : vlookup (bag_of_words corpus) rpad = some 0 :=
    @bagScan_stable corpus bagInit rpad 0 (by decide)
  have h1 : vlookup (bag_of_words corpus) lpad = some 1 :=
    @bagScan_stable corpus bagInit lpad 1 (by decide)
  have hnd : ((bag_of_words corpus).map Prod.snd).Nodup := by
    show ((bagScan bagInit corpus).1.map Prod.snd).Nodup
    rw [@bagScan_snd_range corpus bagInit rfl]
    exact List.nodup_range _
  exact ⟨h0, h1,
    fun t ht => snd_nodup_unique hnd (vlookup_mem ht) (vlookup_mem h0),
    fun t ht => snd_nodup_unique hnd (vlookup_mem ht) (vlookup_mem h1)⟩

/-- Witness for C7 on a concrete two-token corpus. -/
theorem claim7_witness :
    vlookup (bag_of_words [["a", "b"]]) rpad = some 0 ∧
    vlookup (bag_of_words [["a", "b"]]) lpad = some 1 ∧
    "<rpad>" = rpad :=
  ⟨(claim7_sentinel_ids [["a", "b"]]).1,
    (claim7_sentinel_ids [["a", "b"]]).2.1,
    (claim7_sentinel_ids [["a", "b"]]).2.2.1 "<rpad>" (by decide)⟩

/-- Claim C10: every token of `clean_oracle_text` is non-empty, contains no
whitespace and no uppercase ASCII letter, consists only of lowercase
alphanumerics and the kept symbols, and therefore can never equal the
sentinel strings (which contain angle brackets). -/
theorem claim10_token_alphabet (t : List Char) (tok : String)
    (h : tok ∈ clean_oracle_text t) :
    tok ≠ "" ∧
    (∀ c ∈ tok.data, pyIsSpace c = false) ∧
    (∀ c ∈ tok.data, ¬(65 ≤ c.toNat ∧ c.toNat ≤ 90)) ∧
    (∀ c ∈ tok.data, lowerAlnum c = true ∨ symbolChar c = true) ∧
    tok ≠ lpad ∧ tok ≠ rpad := by
  obtain ⟨hne, hchars⟩ := clean_oracle_text_chars tok h
  refine ⟨?_, fun c hc => (hchars c hc).2, ?_,
    fun c hc => (hchars c hc).1, ?_, ?_⟩
  · intro h0
    apply hne
    rw [h0]
  · intro c hc hup
    rcases (hchars c hc).1 with hla | hsym
    · rw [lowerAlnum, decide_eq_true_eq] at hla
      omega
    · rw [symbolChar] at hsym
      simp only [Bool.or_eq_true, beq_iff_eq] at hsym
      rcases hsym with ((((rfl | rfl) | rfl) | rfl) | rfl) | rfl <;>
        revert hup <;> decide
  · intro heq
    subst heq
    exact absurd (hchars '<' (by decide)) (by decide)
  · intro heq
    subst heq
    exact absurd (hchars '<' (by decide)) (by decide)

/-- Witness for C10 at the token `"destroy"` of the spec's example text. -/
theorem claim10_witness :
    "destroy" ∈ clean_oracle_text destroyText ∧
    ("destroy" ≠ "" ∧
      (∀ c ∈ "destroy".data, pyIsSpace c = false) ∧
      (∀ c ∈ "destroy".data, ¬(65 ≤ c.toNat ∧ c.toNat ≤ 90)) ∧
      (∀ c ∈ "destroy".data, lowerAlnum c = true ∨ symbolChar c = true) ∧
      "destroy" ≠ lpad ∧ "destroy" ≠ rpad) :=
  ⟨by decide, claim10_token_alphabet destroyText "destroy" (by decide)⟩

end MtgOracle
